import Mathlib

/-!
Verification of `test_code/fib.c`

The C source under study:

```c
int _start() {
	uint64_t a = 38;
	uint64_t b = fib(a);
	return b;
}

uint64_t fib(uint64_t n) {
	if (n <= 1) {
		return n;
	}
	return fib(n - 1) + fib(n - 2);
}
```

Values of type `uint64_t` are natural numbers below `2 ^ 64`; the two
arithmetic operators of the source (`-` and `+` on `uint64_t`) are embedded
with their wrap-around semantics made explicit.
-/

namespace FibC

/-! ## Machine arithmetic -/

/-- Number of values of a `uint64_t`. -/
def U64_MOD : Nat := 2 ^ 64

/-- The C operator `+` on two `uint64_t` operands: the sum wraps modulo `2 ^ 64`. -/
def addU64 (a b : Nat) : Nat := (a + b) % U64_MOD

/-- The C operator `-` on two `uint64_t` operands: the difference wraps modulo
`2 ^ 64` (so `0 - 1` is `2 ^ 64 - 1`). -/
def subU64 (a b : Nat) : Nat := (a + (U64_MOD - b % U64_MOD)) % U64_MOD

/-- Conversion of a `uint64_t` to a 32-bit signed `int`, as performed by `return b;`
in `_start`: the low 32 bits are kept and read as a signed number. -/
def toInt32 (x : Nat) : Int :=
  if x % 2 ^ 32 < 2 ^ 31 then ((x % 2 ^ 32 : Nat) : Int)
  else ((x % 2 ^ 32 : Nat) : Int) - 2 ^ 32

/-! ## The program -/

/-- The function `fib` of the source, with the recursion bounded by `fuel`:

```c
uint64_t fib(uint64_t n) {
	if (n <= 1) { return n; }
	return fib(n - 1) + fib(n - 2);
}
```

`none` means that the nesting of calls went deeper than `fuel`; no termination
argument is built into this definition. -/
def fibFuel : Nat → Nat → Option Nat
  | 0, _ => none
  | fuel + 1, n =>
    if n ≤ 1 then some n
    else
      match fibFuel fuel (subU64 n 1), fibFuel fuel (subU64 n 2) with
      | some a, some b => some (addU64 a b)
      | _, _ => none

/-- The function `fib` of the source as a total function. The recursion is on
the wrapped differences `n - 1` and `n - 2`; it is accepted because, under the
guard `¬ n ≤ 1`, both are strictly smaller than `n`. -/
def fib (n : Nat) : Nat :=
  if n ≤ 1 then n
  else addU64 (fib (subU64 n 1)) (fib (subU64 n 2))
termination_by n
decreasing_by
  all_goals (simp only [subU64, U64_MOD]; norm_num; omega)

/-- The function `fib` of the source, instrumented with an overflow flag: next to
the value, the result records whether any `+` executed anywhere in the evaluation
(in this call or in a nested one) produced a sum that does not fit in 64 bits. -/
def fibOverflow : Nat → Nat → Option (Nat × Bool)
  | 0, _ => none
  | fuel + 1, n =>
    if n ≤ 1 then some (n, false)
    else
      match fibOverflow fuel (subU64 n 1), fibOverflow fuel (subU64 n 2) with
      | some (a, oa), some (b, ob) =>
        some (addU64 a b, oa || ob || decide (U64_MOD ≤ a + b))
      | _, _ => none

/-- The function `fib` of the source, instrumented with a log of its activations.
Every invocation of `fib` appends one entry `(depth, n)`: the nesting depth at which
it runs (`d` for the call evaluated here, `d + 1` for the two calls it makes) and
its argument. Nothing is shared between the two recursive descents: each is
evaluated and logged in full. -/
def fibTrace : Nat → Nat → Nat → Option (Nat × List (Nat × Nat))
  | 0, _, _ => none
  | fuel + 1, d, n =>
    if n ≤ 1 then some (n, [(d, n)])
    else
      match fibTrace fuel (d + 1) (subU64 n 1), fibTrace fuel (d + 1) (subU64 n 2) with
      | some (a, ta), some (b, tb) => some (addU64 a b, (d, n) :: (ta ++ tb))
      | _, _ => none

/-- The deepest nesting depth recorded in a log of activations. -/
def maxDepth (t : List (Nat × Nat)) : Nat :=
  (t.map Prod.fst).foldr max 0

/-- The entry point of the source:

```c
int _start() {
	uint64_t a = 38;
	uint64_t b = fib(a);
	return b;
}
``` -/
def _start : Int :=
  let a : Nat := 38
  let b : Nat := fib a
  toInt32 b

/-- The entry point of the source, with the log of the activations of `fib` its
execution causes. The one call in the body of `_start` runs at depth `1`; deeper
entries are calls made by `fib` itself. -/
def startTrace (fuel : Nat) : Option (Int × List (Nat × Nat)) :=
  let a : Nat := 38
  match fibTrace fuel 1 a with
  | some (b, t) => some (toInt32 b, t)
  | none => none

/-! ## The mathematical Fibonacci sequence -/

/-- The Fibonacci sequence over the unbounded naturals, as the glossary of the
specification defines it: `F(0) = 0`, `F(1) = 1`, `F(n) = F(n-1) + F(n-2)`. -/
def F : Nat → Nat
  | 0 => 0
  | 1 => 1
  | k + 2 => F (k + 1) + F k

/-! ## Auxiliary lemmas -/

theorem subU64_one (n : Nat) (hn : n < U64_MOD) (h : 2 ≤ n) : subU64 n 1 = n - 1 := by
  unfold subU64 U64_MOD at *
  norm_num
  omega

theorem subU64_two (n : Nat) (hn : n < U64_MOD) (h : 2 ≤ n) : subU64 n 2 = n - 2 := by
  unfold subU64 U64_MOD at *
  norm_num
  omega

theorem fib_base (n : Nat) (h : n ≤ 1) : fib n = n := by
  rw [fib, if_pos h]

theorem fib_step (n : Nat) (hn : n < U64_MOD) (h : 2 ≤ n) :
    fib n = addU64 (fib (n - 1)) (fib (n - 2)) := by
  rw [fib, if_neg (by omega), subU64_one n hn h, subU64_two n hn h]

/-- The sequence `F` is the `Nat.fib` of Mathlib. -/
theorem F_eq_natFib (n : Nat) : F n = Nat.fib n := by
  induction n using Nat.strong_induction_on with
  | _ n ih =>
    match n with
    | 0 => rfl
    | 1 => rfl
    | k + 2 =>
      rw [F, ih (k + 1) (by omega), ih k (by omega), Nat.fib_add_two, Nat.add_comm]

theorem F_mono {a b : Nat} (h : a ≤ b) : F a ≤ F b := by
  rw [F_eq_natFib, F_eq_natFib]
  exact Nat.fib_mono h

/-- On every `uint64_t` argument, `fib` is the Fibonacci number reduced modulo `2 ^ 64`. -/
theorem fib_eq_F_mod (n : Nat) (hn : n < U64_MOD) : fib n = F n % U64_MOD := by
  induction n using Nat.strong_induction_on with
  | _ n ih =>
    match n, hn, ih with
    | 0, _, _ => rw [fib_base 0 (by decide)]; rfl
    | 1, _, _ => rw [fib_base 1 (by decide)]; rfl
    | k + 2, hk, ih =>
      rw [fib_step (k + 2) hk (by omega), ih (k + 2 - 1) (by omega) (by omega),
        ih (k + 2 - 2) (by omega) (by omega)]
      show (F (k + 1) % U64_MOD + F k % U64_MOD) % U64_MOD = (F (k + 1) + F k) % U64_MOD
      exact (Nat.add_mod _ _ _).symm

theorem F_38 : F 38 = 39088169 := by
  rw [F_eq_natFib]; norm_num

theorem F_10 : F 10 = 55 := by
  rw [F_eq_natFib]; norm_num

theorem F_93 : F 93 = 12200160415121876738 := by
  rw [F_eq_natFib]; norm_num

theorem F_94 : F 94 = 19740274219868223167 := by
  rw [F_eq_natFib]; norm_num

/-- With fuel above `n`, the fuel-bounded evaluation returns, and returns `fib n`. -/
theorem fibFuel_complete (fuel : Nat) :
    ∀ n : Nat, n < U64_MOD → n < fuel → fibFuel fuel n = some (fib n) := by
  induction fuel with
  | zero => intro n _ h; omega
  | succ fuel ih =>
    intro n hn hlt
    by_cases h : n ≤ 1
    · rw [fibFuel, if_pos h, fib_base n h]
    · have h2 : 2 ≤ n := by omega
      rw [fibFuel, if_neg h, subU64_one n hn h2, subU64_two n hn h2,
        ih (n - 1) (by omega) (by omega), ih (n - 2) (by omega) (by omega),
        fib_step n hn h2]

/-- Whatever fuel is supplied, a returned value is `fib n`. -/
theorem fibFuel_sound (fuel : Nat) :
    ∀ n v : Nat, fibFuel fuel n = some v → v = fib n := by
  induction fuel with
  | zero => intro n v h; simp [fibFuel] at h
  | succ fuel ih =>
    intro n v h
    by_cases hb : n ≤ 1
    · rw [fibFuel, if_pos hb] at h
      rw [fib_base n hb]
      exact (Option.some.inj h).symm
    · rw [fibFuel, if_neg hb] at h
      rw [fib, if_neg hb]
      cases ha : fibFuel fuel (subU64 n 1) with
      | none => simp [ha] at h
      | some a =>
        cases hb2 : fibFuel fuel (subU64 n 2) with
        | none => simp [ha, hb2] at h
        | some b =>
          simp only [ha, hb2] at h
          rw [← ih _ _ ha, ← ih _ _ hb2]
          exact (Option.some.inj h).symm

theorem overflow_flag (x y : Nat) :
    (decide (U64_MOD ≤ x) || decide (U64_MOD ≤ y)
      || decide (U64_MOD ≤ x % U64_MOD + y % U64_MOD)) = decide (U64_MOD ≤ x + y) := by
  rw [Bool.eq_iff_iff]
  simp only [Bool.or_eq_true, decide_eq_true_eq]
  unfold U64_MOD
  omega

/-- With fuel above `n`, the instrumented evaluation returns `fib n`, and its flag
is raised exactly when the true Fibonacci number does not fit in 64 bits. -/
theorem fibOverflow_eq (fuel : Nat) :
    ∀ n : Nat, n < U64_MOD → n < fuel →
      fibOverflow fuel n = some (F n % U64_MOD, decide (U64_MOD ≤ F n)) := by
  induction fuel with
  | zero => intro n _ h; omega
  | succ fuel ih =>
    intro n hn hlt
    match n, hn, hlt with
    | 0, _, _ => rfl
    | 1, _, _ => rfl
    | k + 2, hk, hlt =>
      rw [fibOverflow, if_neg (by omega), subU64_one (k + 2) hk (by omega),
        subU64_two (k + 2) hk (by omega), ih (k + 2 - 1) (by omega) (by omega),
        ih (k + 2 - 2) (by omega) (by omega)]
      show some (addU64 (F (k + 1) % U64_MOD) (F k % U64_MOD),
          (decide (U64_MOD ≤ F (k + 1)) || decide (U64_MOD ≤ F k)
            || decide (U64_MOD ≤ F (k + 1) % U64_MOD + F k % U64_MOD)))
        = some ((F (k + 1) + F k) % U64_MOD, decide (U64_MOD ≤ F (k + 1) + F k))
      rw [overflow_flag, addU64, ← Nat.add_mod]

/-- The erasure of the overflow flag is the plain evaluation. -/
theorem fibOverflow_erase (fuel : Nat) :
    ∀ n : Nat, (fibOverflow fuel n).map Prod.fst = fibFuel fuel n := by
  induction fuel with
  | zero => intro n; rfl
  | succ fuel ih =>
    intro n
    by_cases hb : n ≤ 1
    · rw [fibOverflow, fibFuel, if_pos hb, if_pos hb]; rfl
    · rw [fibOverflow, fibFuel, if_neg hb, if_neg hb, ← ih, ← ih]
      cases fibOverflow fuel (subU64 n 1) with
      | none => rfl
      | some p =>
        cases fibOverflow fuel (subU64 n 2) with
        | none => rfl
        | some q => rfl

/-- The Fibonacci numbers that fit in 64 bits are those of index at most 93. -/
theorem F_lt_iff (n : Nat) : F n < U64_MOD ↔ n ≤ 93 := by
  constructor
  · intro h
    by_contra hc
    have h94 : F 94 ≤ F n := F_mono (by omega)
    rw [F_94] at h94
    unfold U64_MOD at h
    omega
  · intro h
    have h93 : F n ≤ F 93 := F_mono h
    rw [F_93] at h93
    unfold U64_MOD
    omega

theorem fib_38 : fib 38 = 39088169 := by
  rw [fib_eq_F_mod 38 (by decide), F_38]; decide

theorem start_value : _start = 39088169 := by
  show toInt32 (fib 38) = 39088169
  rw [fib_38]
  decide

theorem F_pos {n : Nat} (h : 0 < n) : 0 < F n := by
  rw [F_eq_natFib]
  exact Nat.fib_pos.2 h

theorem maxDepth_cons (e : Nat × Nat) (t : List (Nat × Nat)) :
    maxDepth (e :: t) = max e.1 (maxDepth t) := rfl

theorem maxDepth_append (t u : List (Nat × Nat)) :
    maxDepth (t ++ u) = max (maxDepth t) (maxDepth u) := by
  induction t with
  | nil => show maxDepth u = max 0 (maxDepth u); omega
  | cons e t ih =>
    rw [List.cons_append, maxDepth_cons, maxDepth_cons, ih]
    omega

/-- With fuel at least `max 1 n`, the logging evaluation returns `fib n`; its log
starts with the activation `(d, n)`, every other entry is strictly deeper, the log
has `2 * F (n + 1) - 1` entries and its deepest entry is at `d + (max 1 n - 1)`. -/
theorem fibTrace_spec (fuel : Nat) :
    ∀ d n : Nat, n < U64_MOD → max 1 n ≤ fuel →
      ∃ rest : List (Nat × Nat),
        fibTrace fuel d n = some (fib n, (d, n) :: rest) ∧
        (∀ e ∈ rest, d < e.1) ∧
        ((d, n) :: rest).length = 2 * F (n + 1) - 1 ∧
        maxDepth ((d, n) :: rest) = d + (max 1 n - 1) := by
  induction fuel with
  | zero => intro _ n _ h; omega
  | succ fuel ih =>
    intro d n hn hlt
    match n, hn, hlt with
    | 0, _, _ =>
      exact ⟨[], by rw [fibTrace, if_pos (by decide), fib_base 0 (by decide)],
        by simp, rfl, by simp [maxDepth]⟩
    | 1, _, _ =>
      exact ⟨[], by rw [fibTrace, if_pos (by decide), fib_base 1 (by decide)],
        by simp, rfl, by simp [maxDepth]⟩
    | k + 2, hk, hlt =>
      obtain ⟨ra, ha, hda, hla, hma⟩ := ih (d + 1) (k + 1) (by omega) (by omega)
      obtain ⟨rb, hb, hdb, hlb, hmb⟩ := ih (d + 1) k (by omega) (by omega)
      refine ⟨((d + 1, k + 1) :: ra) ++ ((d + 1, k) :: rb), ?_, ?_, ?_, ?_⟩
      · rw [fibTrace, if_neg (by omega), subU64_one (k + 2) hk (by omega),
          subU64_two (k + 2) hk (by omega)]
        show (match fibTrace fuel (d + 1) (k + 1), fibTrace fuel (d + 1) k with
          | some (a, ta), some (b, tb) => some (addU64 a b, (d, k + 2) :: (ta ++ tb))
          | _, _ => none) = _
        rw [ha, hb, fib_step (k + 2) hk (by omega)]
        rfl
      · intro e he
        rcases List.mem_append.1 he with h | h
        · rcases List.mem_cons.1 h with rfl | h
          · exact Nat.lt_succ_self d
          · exact Nat.lt_trans (Nat.lt_succ_self d) (hda e h)
        · rcases List.mem_cons.1 h with rfl | h
          · exact Nat.lt_succ_self d
          · exact Nat.lt_trans (Nat.lt_succ_self d) (hdb e h)
      · have hF : F (k + 2 + 1) = F (k + 1 + 1) + F (k + 1) := rfl
        have h1 : 0 < F (k + 1 + 1) := F_pos (by omega)
        have h2 : 0 < F (k + 1) := F_pos (by omega)
        rw [List.length_cons, List.length_append, hla, hlb, hF]
        omega
      · rw [maxDepth_cons, maxDepth_append, hma, hmb]
        show max d (max (d + 1 + (max 1 (k + 1) - 1)) (d + 1 + (max 1 k - 1)))
          = d + (max 1 (k + 2) - 1)
        omega

/-- With fuel below `max 1 n`, the logging evaluation runs out of fuel. -/
theorem fibTrace_none (fuel : Nat) :
    ∀ d n : Nat, n < U64_MOD → fuel < max 1 n → fibTrace fuel d n = none := by
  induction fuel with
  | zero => intro d n _ _; rfl
  | succ fuel ih =>
    intro d n hn hlt
    have h2 : 2 ≤ n := by omega
    rw [fibTrace, if_neg (by omega), subU64_one n hn h2, ih (d + 1) (n - 1) (by omega) (by omega)]

/-- The Fibonacci numbers grow at least like `2 ^ (n / 2)`. -/
theorem F_succ_lower (n : Nat) : 2 ^ (n / 2) ≤ F (n + 1) := by
  induction n using Nat.strong_induction_on with
  | _ n ih =>
    match n with
    | 0 => decide
    | 1 => decide
    | k + 2 =>
      have h1 := ih k (by omega)
      have h2 : F (k + 1) ≤ F (k + 2) := F_mono (by omega)
      have hF : F (k + 2 + 1) = F (k + 2) + F (k + 1) := rfl
      have hp : 2 ^ ((k + 2) / 2) = 2 * 2 ^ (k / 2) := by
        rw [Nat.add_div_right k (by decide), Nat.pow_succ, Nat.mul_comm]
      rw [hF, hp]
      omega

/-- The Fibonacci numbers grow at most like `2 ^ n`. -/
theorem F_upper (n : Nat) : F n ≤ 2 ^ n := by
  induction n using Nat.strong_induction_on with
  | _ n ih =>
    match n with
    | 0 => decide
    | 1 => decide
    | k + 2 =>
      have h1 := ih k (by omega)
      have h2 := ih (k + 1) (by omega)
      have hF : F (k + 2) = F (k + 1) + F k := rfl
      have hp1 : 2 ^ (k + 1) = 2 * 2 ^ k := by rw [Nat.pow_succ, Nat.mul_comm]
      have hp2 : 2 ^ (k + 2) = 2 * 2 ^ (k + 1) := by rw [Nat.pow_succ, Nat.mul_comm]
      rw [hF, hp2]
      omega

/-! ## Claims -/

/-- C1: for every unsigned 64-bit `n`, `fib n` is the mathematical Fibonacci number
`F n` reduced modulo `2 ^ 64`. -/
theorem fib_is_fibonacci_mod (n : Nat) (hn : n < 2 ^ 64) : fib n = F n % 2 ^ 64 :=
  fib_eq_F_mod n hn

theorem fib_is_fibonacci_mod_witness :
    (100 : Nat) < 2 ^ 64 ∧ fib 100 = F 100 % 2 ^ 64 :=
  ⟨by decide, fib_is_fibonacci_mod 100 (by decide)⟩

/-- C2: for every unsigned 64-bit `n` with `n ≥ 2`, `fib n` is the unsigned 64-bit sum
(the sum modulo `2 ^ 64`) of `fib (n - 1)` and `fib (n - 2)`. -/
theorem fib_recurrence (n : Nat) (hn : n < 2 ^ 64) (h : 2 ≤ n) :
    fib n = (fib (n - 1) + fib (n - 2)) % 2 ^ 64 :=
  fib_step n hn h

theorem fib_recurrence_witness :
    (7 : Nat) < 2 ^ 64 ∧ 2 ≤ 7 ∧ fib 7 = (fib (7 - 1) + fib (7 - 2)) % 2 ^ 64 :=
  ⟨by decide, by decide, fib_recurrence 7 (by decide) (by decide)⟩

/-- C3: for every unsigned 64-bit `n` with `n ≤ 1`, `fib n` returns `n` unchanged; in
particular `fib 0 = 0` and `fib 1 = 1`. -/
theorem fib_base_case :
    (∀ n : Nat, n < 2 ^ 64 → n ≤ 1 → fib n = n) ∧ fib 0 = 0 ∧ fib 1 = 1 :=
  ⟨fun n _ h => fib_base n h, fib_base 0 (by decide), fib_base 1 (by decide)⟩

theorem fib_base_case_witness :
    ((1 : Nat) < 2 ^ 64 ∧ 1 ≤ 1 ∧ fib 1 = 1) ∧ fib 0 = 0 ∧ fib 1 = 1 :=
  ⟨⟨by decide, by decide, fib_base_case.1 1 (by decide) (by decide)⟩, fib_base_case.2⟩

/-- C4: `fib 38 = 39088169`. -/
theorem fib_38_value : fib 38 = 39088169 :=
  fib_38

/-- C8: `fib 10 = 55`. -/
theorem fib_10_value : fib 10 = 55 := by
  rw [fib_eq_F_mod 10 (by decide), F_10]; decide

/-- C5: the entry point `_start`, which takes no input, returns a value whose low-order
`W` bits are `39088169 mod 2 ^ W` for every exit-status width `W`; for `W = 8` the
observed exit status is `41`. -/
theorem start_exit_status :
    (∀ W : Nat, _start % 2 ^ W = 39088169 % 2 ^ W) ∧ _start % 2 ^ 8 = 41 := by
  rw [start_value]
  exact ⟨fun _ => rfl, by decide⟩

/-- C6: for every `n ≤ 93`, and so for the fixed input `38`, no addition executed anywhere
in the recursive evaluation of `fib n` overflows 64 bits (the overflow flag of the
instrumented evaluation stays down), and `fib n` is the exact Fibonacci number `F n`. -/
theorem fib_no_overflow (n : Nat) (hn : n ≤ 93) :
    (∀ fuel : Nat, n < fuel → fibOverflow fuel n = some (F n, false)) ∧ fib n = F n := by
  have hlt : F n < U64_MOD := (F_lt_iff n).2 hn
  have hu : n < U64_MOD := by unfold U64_MOD; omega
  refine ⟨fun fuel hf => ?_, ?_⟩
  · rw [fibOverflow_eq fuel n hu hf, Nat.mod_eq_of_lt hlt]
    simp [hlt]
  · rw [fib_eq_F_mod n hu, Nat.mod_eq_of_lt hlt]

theorem fib_no_overflow_witness :
    (38 : Nat) ≤ 93 ∧
      ((∀ fuel : Nat, 38 < fuel → fibOverflow fuel 38 = some (F 38, false)) ∧ fib 38 = F 38) :=
  ⟨by decide, fib_no_overflow 38 (by decide)⟩

/-- C7: the unsigned 64-bit `n` whose true Fibonacci number `F n` exceeds `2 ^ 64 - 1` are
exactly those with `n ≥ 94`; for each of them the evaluation of `fib n` returns a
value like any other (no error is signalled), the wrapped `F n mod 2 ^ 64`, which
differs from `F n`. For example `fib 94 = 1293530146158671551` while
`F 94 = 19740274219868223167`. -/
theorem fib_silent_wrap (n : Nat) (hn : n < 2 ^ 64) :
    (2 ^ 64 - 1 < F n ↔ 94 ≤ n) ∧
    (2 ^ 64 - 1 < F n →
      fibFuel (n + 1) n = some (F n % 2 ^ 64) ∧ fib n = F n % 2 ^ 64 ∧ fib n ≠ F n) ∧
    fib 94 = 1293530146158671551 ∧ F 94 = 19740274219868223167 := by
  have hiff : 2 ^ 64 - 1 < F n ↔ 94 ≤ n := by
    have h := F_lt_iff n
    unfold U64_MOD at h
    omega
  have hfib : fib n = F n % 2 ^ 64 := fib_eq_F_mod n hn
  refine ⟨hiff, fun hbig => ⟨?_, hfib, ?_⟩, ?_, F_94⟩
  · rw [fibFuel_complete (n + 1) n hn (by omega), hfib]
  · rw [hfib]
    have hm : F n % 2 ^ 64 < 2 ^ 64 := Nat.mod_lt _ (by decide)
    omega
  · rw [fib_eq_F_mod 94 (by decide), F_94]
    decide

theorem fib_silent_wrap_witness :
    (94 : Nat) < 2 ^ 64 ∧
      ((2 ^ 64 - 1 < F 94 ↔ 94 ≤ 94) ∧
      (2 ^ 64 - 1 < F 94 →
        fibFuel (94 + 1) 94 = some (F 94 % 2 ^ 64) ∧ fib 94 = F 94 % 2 ^ 64 ∧ fib 94 ≠ F 94) ∧
      fib 94 = 1293530146158671551 ∧ F 94 = 19740274219868223167) :=
  ⟨by decide, fib_silent_wrap 94 (by decide)⟩

/-- C10: for every unsigned 64-bit `n` the recursion of `fib` is well-founded. The
recursive branch is entered only when `n ≥ 2` (an evaluation allowed no nested call
fails exactly then); there `n - 1` and `n - 2` are computed without unsigned
underflow and are strictly smaller than `n`; hence the evaluation returns as soon as
the allowed nesting exceeds `n`, and `fib` is total on `uint64_t`. -/
theorem fib_well_founded (n : Nat) (hn : n < 2 ^ 64) :
    (fibFuel 1 n = none ↔ 2 ≤ n) ∧
    (2 ≤ n → subU64 n 1 = n - 1 ∧ subU64 n 2 = n - 2 ∧ subU64 n 1 < n ∧ subU64 n 2 < n) ∧
    (∀ fuel : Nat, n < fuel → fibFuel fuel n = some (fib n)) := by
  refine ⟨?_, fun h => ?_, fun fuel hf => fibFuel_complete fuel n hn hf⟩
  · by_cases hb : n ≤ 1
    · rw [fibFuel, if_pos hb]
      constructor
      · intro h; cases h
      · intro h; omega
    · rw [fibFuel, if_neg hb]
      constructor
      · intro _; omega
      · intro _; rfl
  · rw [subU64_one n hn h, subU64_two n hn h]
    omega

theorem fib_well_founded_witness :
    (2 ^ 64 - 1 : Nat) < 2 ^ 64 ∧
      ((fibFuel 1 (2 ^ 64 - 1) = none ↔ 2 ≤ 2 ^ 64 - 1) ∧
      (2 ≤ 2 ^ 64 - 1 →
        subU64 (2 ^ 64 - 1) 1 = 2 ^ 64 - 1 - 1 ∧ subU64 (2 ^ 64 - 1) 2 = 2 ^ 64 - 1 - 2 ∧
        subU64 (2 ^ 64 - 1) 1 < 2 ^ 64 - 1 ∧ subU64 (2 ^ 64 - 1) 2 < 2 ^ 64 - 1) ∧
      (∀ fuel : Nat, 2 ^ 64 - 1 < fuel → fibFuel fuel (2 ^ 64 - 1) = some (fib (2 ^ 64 - 1)))) :=
  ⟨by decide, fib_well_founded (2 ^ 64 - 1) (by decide)⟩

/-- C11: the 32-bit signed `int` that `_start` returns is the full 64-bit result
`fib 38 = 39088169`: the result is below `2 ^ 31`, so the narrowing drops no bit. And
`_start` invokes `fib` exactly once, with argument `38`: in the log of activations of
an execution of `_start`, the entries at depth `1` (the calls made by `_start`
itself) are the single entry for `fib 38`. -/
theorem start_full_value_single_call :
    _start = ((fib 38 : Nat) : Int) ∧ fib 38 = 39088169 ∧
    fib 38 % 2 ^ 32 = fib 38 ∧ fib 38 < 2 ^ 31 ∧
    ∀ fuel : Nat, 38 ≤ fuel →
      ∃ t : List (Nat × Nat), startTrace fuel = some (_start, t) ∧
        t.filter (fun e => decide (e.1 = 1)) = [(1, 38)] := by
  refine ⟨?_, fib_38, ?_, ?_, ?_⟩
  · rw [start_value, fib_38]; rfl
  · rw [fib_38]; decide
  · rw [fib_38]; decide
  · intro fuel hf
    obtain ⟨rest, hrun, hdeep, _, _⟩ := fibTrace_spec fuel 1 38 (by decide) (by omega)
    refine ⟨(1, 38) :: rest, ?_, ?_⟩
    · show (match fibTrace fuel 1 38 with
        | some (b, t) => some (toInt32 b, t)
        | none => none) = _
      rw [hrun]
      rfl
    · rw [List.filter_cons_of_pos (by simp), List.filter_eq_nil_iff.2]
      intro e he
      have := hdeep e he
      simp only [decide_eq_true_eq]
      omega

theorem start_full_value_single_call_witness :
    (38 : Nat) ≤ 38 ∧
      ∃ t : List (Nat × Nat), startTrace 38 = some (_start, t) ∧
        t.filter (fun e => decide (e.1 = 1)) = [(1, 38)] :=
  ⟨by decide, start_full_value_single_call.2.2.2.2 38 (by decide)⟩

/-- C12: counting the outermost call as depth `1`, the maximum nesting depth of `fib`
activations while evaluating `fib n` on an unsigned 64-bit `n` is `1` for `n = 0` and
exactly `n` for every `n ≥ 1`, so it grows linearly with `n`. An evaluation whose
nesting is bounded below that depth does not complete; one allowed that depth
returns `fib n` with a log whose deepest activation is at that depth. -/
theorem fib_depth_linear (n : Nat) (hn : n < 2 ^ 64) (fuel : Nat) :
    (fuel < (if n = 0 then 1 else n) → fibTrace fuel 1 n = none) ∧
    ((if n = 0 then 1 else n) ≤ fuel →
      ∃ t : List (Nat × Nat), fibTrace fuel 1 n = some (fib n, t) ∧
        maxDepth t = (if n = 0 then 1 else n)) := by
  have hmax : (if n = 0 then 1 else n) = max 1 n := by
    split <;> omega
  rw [hmax]
  refine ⟨fun h => fibTrace_none fuel 1 n hn h, fun h => ?_⟩
  obtain ⟨rest, hrun, _, _, hdepth⟩ := fibTrace_spec fuel 1 n hn h
  refine ⟨(1, n) :: rest, hrun, ?_⟩
  rw [hdepth]
  omega

theorem fib_depth_linear_witness :
    (38 : Nat) < 2 ^ 64 ∧ fibTrace 37 1 38 = none ∧
      ∃ t : List (Nat × Nat), fibTrace 38 1 38 = some (fib 38, t) ∧ maxDepth t = 38 :=
  ⟨by decide, (fib_depth_linear 38 (by decide) 37).1 (by decide),
    (fib_depth_linear 38 (by decide) 38).2 (by decide)⟩

/-- C13: the total number of `fib` invocations made while evaluating `fib n` on an
unsigned 64-bit `n`, each recursive descent being evaluated in full, is exactly
`2 * F (n + 1) - 1`; this number lies between `2 ^ (n / 2)` and `2 ^ (n + 2)`, so
it is exponential in `n`. -/
theorem fib_call_count (n : Nat) (hn : n < 2 ^ 64) :
    (∀ fuel : Nat, n < fuel →
      ∃ t : List (Nat × Nat), fibTrace fuel 1 n = some (fib n, t) ∧
        t.length = 2 * F (n + 1) - 1) ∧
    2 ^ (n / 2) ≤ 2 * F (n + 1) - 1 ∧ 2 * F (n + 1) - 1 ≤ 2 ^ (n + 2) := by
  refine ⟨fun fuel hf => ?_, ?_, ?_⟩
  · obtain ⟨rest, hrun, _, hlen, _⟩ := fibTrace_spec fuel 1 n hn (by omega)
    exact ⟨(1, n) :: rest, hrun, hlen⟩
  · have h := F_succ_lower n
    have hp : 0 < F (n + 1) := F_pos (by omega)
    omega
  · have h := F_upper (n + 1)
    have hp : 2 ^ (n + 2) = 2 * 2 ^ (n + 1) := by rw [Nat.pow_succ, Nat.mul_comm]
    omega

theorem fib_call_count_witness :
    (4 : Nat) < 2 ^ 64 ∧
      ((∀ fuel : Nat, 4 < fuel →
        ∃ t : List (Nat × Nat), fibTrace fuel 1 4 = some (fib 4, t) ∧
          t.length = 2 * F (4 + 1) - 1) ∧
      2 ^ (4 / 2) ≤ 2 * F (4 + 1) - 1 ∧ 2 * F (4 + 1) - 1 ≤ 2 ^ (4 + 2)) :=
  ⟨by decide, fib_call_count 4 (by decide)⟩

/-- C14: on the range without wrap-around `fib` is monotone: `fib n ≤ fib m` for all
`n ≤ m ≤ 93`; monotonicity fails once wrapping starts, `fib 94 < fib 93`. -/
theorem fib_monotone_until_wrap :
    (∀ n m : Nat, n ≤ m → m ≤ 93 → fib n ≤ fib m) ∧ fib 94 < fib 93 := by
  constructor
  · intro n m hnm hm
    have hFm : F m < U64_MOD := (F_lt_iff m).2 hm
    have hFn : F n < U64_MOD := (F_lt_iff n).2 (by omega)
    rw [fib_eq_F_mod n (by unfold U64_MOD; omega), fib_eq_F_mod m (by unfold U64_MOD; omega),
      Nat.mod_eq_of_lt hFn, Nat.mod_eq_of_lt hFm]
    exact F_mono hnm
  · rw [fib_eq_F_mod 94 (by decide), fib_eq_F_mod 93 (by decide), F_94, F_93]
    decide

theorem fib_monotone_until_wrap_witness :
    ((10 : Nat) ≤ 38 ∧ (38 : Nat) ≤ 93 ∧ fib 10 ≤ fib 38) ∧ fib 94 < fib 93 :=
  ⟨⟨by decide, by decide, fib_monotone_until_wrap.1 10 38 (by decide) (by decide)⟩,
    fib_monotone_until_wrap.2⟩

end FibC
